import Mathlib

/-!
Shallow embedding of the `stm-datastructures` crate (src/lib.rs): a
transaction-ready hash set (`THashSet`) and hash map (`THashMap`), each
sharded over a fixed number of buckets, every bucket held by one
transactional variable (`TVar`) of the external `stm` engine.

Modelling choices, each tied to the source:

* A Rust `HashSet<T>` is a duplicate-free `List T`: `HashSet::insert` is
  `hsInsert` (adds only when absent), `HashSet::contains` is list
  membership, `HashSet::new` is `[]`, and `drain().collect()` yields the
  list itself (iteration order of a `HashSet` is unspecified; the list
  order stands for it).
* A Rust `HashMap<K, V>` is an association list `List (K × V)` whose keys
  the operations keep duplicate-free; `HashMap::insert` is `hmInsert`
  (replaces any entry carrying the same key).
* The `DefaultHasher` pipeline (`value.hash(&mut hasher); hasher.finish()
  as usize`) is an external deterministic function, taken as a parameter
  `hash : T → Nat`; the routing `hasher.finish() as usize % len` is
  `bucketNo hash len`.  All three call sites of the pipeline (insert,
  from_hashmap, get_bucket) are verbatim copies of one another in the
  source, so they share the one definition here.
* A `TVar` holds its bucket's collection directly.  The claims under study
  are sequential, so a transactional `read` or a `read_ref_atomic` returns
  the current value (the engine hands out a clone) and `modify` applies a
  function to the current value.  The container state is the list of
  bucket contents; mutating operations return the result paired with the
  updated state.
* A Rust panic — `x % 0` on `usize` in `insert`/`get_bucket`, `x / 0` in
  `from_hashmap` — is `Option.none`; exactly the operations in which the
  source can panic return `Option`.
-/

namespace StmDS

/-- Rust `HashSet::insert`: add the value only when it is absent. -/
def hsInsert {T : Type} [DecidableEq T] (value : T) (hs : List T) : List T :=
  if value ∈ hs then hs else value :: hs

/-- Rust `HashMap::insert`: the new entry replaces any entry with the same key. -/
def hmInsert {K V : Type} [DecidableEq K] (k : K) (v : V) (hm : List (K × V)) :
    List (K × V) :=
  (k, v) :: hm.filter (fun p => decide (p.1 ≠ k))

/-- Hash routing shared by `insert`, `from_hashmap` and `get_bucket`:
`hasher.finish() as usize % len` with the hasher pipeline abstracted as
`hash`. -/
def bucketNo {T : Type} (hash : T → Nat) (len : Nat) (value : T) : Nat :=
  hash value % len

/-- Transaction-ready hash set: `contents: Vec<TVar<HashSet<T>>>`, one bucket
per transactional variable. -/
structure THashSet (T : Type) where
  contents : List (List T)
deriving DecidableEq

/-- Rust `THashSet::new(bucket_count)`: `bucket_count` buckets, each an empty
set.  No failure path exists in the source: the constructor is total, also at
`bucket_count = 0` (the loop simply runs zero times). -/
def THashSet.new {T : Type} (bucket_count : Nat) : THashSet T :=
  ⟨List.replicate bucket_count []⟩

/-- Rust `THashSet::insert`: route the value (`% contents.len()` panics when
the bucket vector is empty, hence `none`), probe the routed bucket with an
atomic read, answer `false` without mutating when the value is present,
otherwise `modify` the routed bucket with `HashSet::insert` and answer
`true`. -/
def THashSet.insert {T : Type} [DecidableEq T] (hash : T → Nat) (s : THashSet T)
    (value : T) : Option (Bool × THashSet T) :=
  if s.contents.length = 0 then
    none
  else
    let bucket_no : Nat := bucketNo hash s.contents.length value
    let set_ro : List T := s.contents.getD bucket_no []
    if value ∈ set_ro then
      some (false, s)
    else
      some (true, ⟨s.contents.set bucket_no (hsInsert value set_ro)⟩)

/-- Rust `THashSet::as_vec`: for each bucket in ascending index order, `read`
the transactional variable (the engine returns a clone), drain the clone and
append the drained elements to the result.  No `write` or `modify` of any
transactional variable occurs, so the state component is the unchanged
`s`. -/
def THashSet.as_vec {T : Type} (s : THashSet T) : List T × THashSet T :=
  (s.contents.foldl (fun result innerSet => result ++ innerSet) [], s)

/-- Driver for a sequence of `insert` calls, one transaction each, threading
the state and collecting the returned booleans. -/
def THashSet.insertAll {T : Type} [DecidableEq T] (hash : T → Nat) :
    THashSet T → List T → Option (List Bool × THashSet T)
  | s, [] => some ([], s)
  | s, value :: rest =>
    match s.insert hash value with
    | none => none
    | some (b, s1) =>
      match THashSet.insertAll hash s1 rest with
      | none => none
      | some (bs, s2) => some (b :: bs, s2)

/-- Aggregate contents of the set: the concatenation of all buckets. -/
def THashSet.elems {T : Type} (s : THashSet T) : List T :=
  s.contents.flatten

/-- Transaction-ready hash map: `contents: Vec<TVar<HashMap<K,V>>>`. -/
structure THashMap (K V : Type) where
  contents : List (List (K × V))
deriving DecidableEq

/-- Rust `THashMap::new(bucket_count)`: `bucket_count` buckets, each an empty
mapping; total, also at `bucket_count = 0`. -/
def THashMap.new {K V : Type} (bucket_count : Nat) : THashMap K V :=
  ⟨List.replicate bucket_count []⟩

/-- Loop body of `THashMap::from_hashmap`: fold the source entries, inserting
each into the bucket its key routes to (`hs[bucket_no].insert(k, v)`). -/
def partitionLoop {K V : Type} [DecidableEq K] (hash : K → Nat) (bucket_count : Nat) :
    List (K × V) → List (List (K × V)) → List (List (K × V))
  | [], hs => hs
  | (k, v) :: rest, hs =>
    partitionLoop hash bucket_count rest
      (hs.set (bucketNo hash bucket_count k)
        (hmInsert k v (hs.getD (bucketNo hash bucket_count k) [])))

/-- Rust `THashMap::from_hashmap`: `map.len() / bucket_count` panics when
`bucket_count = 0` (hence `none`); otherwise partition the source entries
into `bucket_count` groups by routed index and wrap each group.  The source
`HashMap` is modelled as its entry list, keys duplicate-free. -/
def THashMap.from_hashmap {K V : Type} [DecidableEq K] (hash : K → Nat)
    (map : List (K × V)) (bucket_count : Nat) : Option (THashMap K V) :=
  if bucket_count = 0 then
    none
  else
    some ⟨partitionLoop hash bucket_count map (List.replicate bucket_count [])⟩

/-- Rust `THashMap::get_bucket`: route the key and return a handle to the
owning transactional variable, modelled by the bucket's index into
`contents` (`% contents.len()` panics when the bucket vector is empty). -/
def THashMap.get_bucket {K V : Type} (hash : K → Nat) (m : THashMap K V)
    (item : K) : Option Nat :=
  if m.contents.length = 0 then
    none
  else
    some (bucketNo hash m.contents.length item)

/-- Loop of `THashMap::is_empty`: read the buckets in ascending index order
and return `false` at the first nonempty one. -/
def isEmptyLoop {K V : Type} : List (List (K × V)) → Bool
  | [] => true
  | bucket :: rest => if !bucket.isEmpty then false else isEmptyLoop rest

/-- Rust `THashMap::is_empty`: `true` only when every bucket is empty. -/
def THashMap.is_empty {K V : Type} (m : THashMap K V) : Bool :=
  isEmptyLoop m.contents

/-- Generic placement property of a vector of buckets: every element of
every bucket sits in the bucket the function `f` names for it. -/
def Placed {α : Type} (f : α → Nat) (L : List (List α)) : Prop :=
  ∀ (i : Nat) (hi : i < L.length), ∀ x ∈ L[i], f x = i

/-- Bucket-placement invariant of the set: the bucket vector has its
construction-time length and every element sits, duplicate-free, in the
bucket its hash routes it to. -/
def THashSet.Inv {T : Type} (hash : T → Nat) (n : Nat) (s : THashSet T) : Prop :=
  s.contents.length = n ∧
  Placed (bucketNo hash n) s.contents ∧
  ∀ (i : Nat) (hi : i < s.contents.length), (s.contents[i]).Nodup

/-- Bucket-placement invariant of the map: keys are duplicate-free within
each bucket and every entry sits in the bucket its key routes to. -/
def THashMap.MapInv {K V : Type} (hash : K → Nat) (n : Nat) (m : THashMap K V) : Prop :=
  m.contents.length = n ∧
  Placed (fun p => bucketNo hash n p.1) m.contents ∧
  ∀ (i : Nat) (hi : i < m.contents.length), ((m.contents[i]).map Prod.fst).Nodup

/-- States of the set reachable by the mutating interface: construction,
any sequence of (non-panicking) `insert` calls and `as_vec` calls. -/
inductive SetReach {T : Type} [DecidableEq T] (hash : T → Nat) (n : Nat) :
    THashSet T → Prop
  | init : SetReach hash n (THashSet.new n)
  | step_insert (s : THashSet T) (value : T) (b : Bool) (s2 : THashSet T) :
      SetReach hash n s → THashSet.insert hash s value = some (b, s2) →
      SetReach hash n s2
  | step_as_vec (s : THashSet T) : SetReach hash n s → SetReach hash n (s.as_vec).2

/-! Conclusions of the claims under study, one `Prop` each, stated over the
embedded operations. -/

/-- Conclusion of claim C2: a single `insert` on any state satisfying the
placement invariant answers exactly the absence test and leaves the state
untouched on a `false` answer; a whole sequence of inserts started on a
fresh set answers `true` exactly at the first occurrence of each value. -/
def InsertSpec (T : Type) [DecidableEq T] (hash : T → Nat) (n : Nat) : Prop :=
  (∀ (s : THashSet T) (value : T), THashSet.Inv hash n s →
    ∃ s2 : THashSet T,
      s.insert hash value = some (decide (value ∉ s.elems), s2) ∧
      (value ∈ s.elems → s2 = s)) ∧
  (∀ l : List T, ∃ (bs : List Bool) (s2 : THashSet T),
    (THashSet.new n : THashSet T).insertAll hash l = some (bs, s2) ∧
    bs.length = l.length ∧
    ∀ (i : Nat) (hi : i < l.length) (hb : i < bs.length),
      bs[i] = decide (l[i] ∉ l.take i))

/-- Conclusion of claim C4: `as_vec` returns the buckets concatenated in
ascending index order, and after inserting any duplicate-free list into a
fresh set it returns exactly those values, without duplicates. -/
def AsVecSpec (T : Type) [DecidableEq T] (hash : T → Nat) (n : Nat) : Prop :=
  (∀ s : THashSet T, (s.as_vec).1 = s.contents.flatten) ∧
  (∀ l : List T, l.Nodup →
    ∀ (bs : List Bool) (s2 : THashSet T),
      (THashSet.new n : THashSet T).insertAll hash l = some (bs, s2) →
      (∀ x, x ∈ (s2.as_vec).1 ↔ x ∈ l) ∧ (s2.as_vec).1.Nodup)

/-- Conclusion of claim C9: `as_vec` is read-only on every bucket, and its
returned sequence is the concatenation of the (unchanged) buckets. -/
def AsVecFrameSpec (T : Type) : Prop :=
  ∀ s : THashSet T,
    ((s.as_vec).2).contents = s.contents ∧ (s.as_vec).1 = s.contents.flatten

/-- Conclusion of claim C3 as amended: the plain constructors return
normally at every bucket count (with that many buckets), the bulk
constructor succeeds at every nonzero bucket count and fails (panics on the
division `len / bucket_count`) exactly at bucket count zero. -/
def ConstructSpec (K V : Type) [DecidableEq K] (hash : K → Nat) (n : Nat) : Prop :=
  (∀ c : Nat, (THashSet.new c : THashSet K).contents.length = c) ∧
  (∀ c : Nat, (THashMap.new c : THashMap K V).contents.length = c) ∧
  (∀ source : List (K × V), (THashMap.from_hashmap hash source n).isSome) ∧
  (∀ source : List (K × V), THashMap.from_hashmap hash source 0 = none)

/-- Conclusion of claim C5: bulk construction from a source with
duplicate-free keys partitions exactly the source entries over the buckets,
each entry in the bucket its key routes to, with no key duplicated. -/
def FromHashmapSpec (K V : Type) [DecidableEq K] (hash : K → Nat)
    (src : List (K × V)) (n : Nat) : Prop :=
  ∃ m : THashMap K V,
    THashMap.from_hashmap hash src n = some m ∧
    m.contents.length = n ∧
    (∀ p : K × V,
      (∃ (i : Nat) (hi : i < m.contents.length), p ∈ m.contents[i]) ↔ p ∈ src) ∧
    (∀ (p : K × V) (i : Nat) (hi : i < m.contents.length),
      p ∈ m.contents[i] → i = bucketNo hash n p.1) ∧
    (m.contents.flatten.map Prod.fst).Nodup

/-- Conclusion of claim C6: `is_empty` answers whether the ascending-order
scan finds no nonempty bucket, equivalently whether every bucket is empty;
it is `true` on every freshly constructed map and `false` once a single
entry has been placed. -/
def IsEmptySpec (K V : Type) [DecidableEq K] (hash : K → Nat) (n : Nat) : Prop :=
  (∀ m : THashMap K V,
    m.is_empty = (m.contents.find? (fun bucket => !bucket.isEmpty)).isNone) ∧
  (∀ m : THashMap K V, m.is_empty = true ↔ ∀ bucket ∈ m.contents, bucket = []) ∧
  (∀ c : Nat, (THashMap.new c : THashMap K V).is_empty = true) ∧
  (∀ (k : K) (v : V) (m : THashMap K V),
    THashMap.from_hashmap hash [(k, v)] n = some m → m.is_empty = false)

/-- Conclusion of claim C7: the shared routing is deterministic and lands
in `[0, n)`; `get_bucket` returns the handle of exactly the routed bucket,
which under the invariant is the one holding the key; `insert` mutates at
most the routed bucket; bulk construction places every entry at its routed
bucket. -/
def RouteSpec (K V : Type) [DecidableEq K] (hash : K → Nat) (n : Nat) : Prop :=
  (∀ k : K, bucketNo hash n k < n) ∧
  (∀ k1 k2 : K, k1 = k2 → bucketNo hash n k1 = bucketNo hash n k2) ∧
  (∀ (m : THashMap K V) (k : K), m.contents.length = n →
    m.get_bucket hash k = some (bucketNo hash n k)) ∧
  (∀ (m : THashMap K V), THashMap.MapInv hash n m →
    ∀ (k : K) (v : V) (i : Nat) (hi : i < m.contents.length),
      (k, v) ∈ m.contents[i] → i = bucketNo hash n k) ∧
  (∀ (src : List (K × V)) (m : THashMap K V),
    THashMap.from_hashmap hash src n = some m → THashMap.MapInv hash n m) ∧
  (∀ (s : THashSet K) (value : K) (b : Bool) (s2 : THashSet K),
    s.contents.length = n → s.insert hash value = some (b, s2) →
    ∀ j : Nat, j ≠ bucketNo hash n value →
      s2.contents.getD j [] = s.contents.getD j [])

/-- Conclusion of claim C8: in every reachable state of the set, and in
every constructible map, an element or key sits in the bucket its hash
routes it to and in no other bucket. -/
def OneLocSpec (K V : Type) [DecidableEq K] (hash : K → Nat) (n : Nat) : Prop :=
  (∀ s : THashSet K, SetReach hash n s →
    ∀ (x : K) (i j : Nat) (hi : i < s.contents.length) (hj : j < s.contents.length),
      x ∈ s.contents[i] →
      (bucketNo hash n x = i ∧ (x ∈ s.contents[j] → i = j))) ∧
  (∀ m : THashMap K V,
    (m = THashMap.new n ∨ ∃ src, THashMap.from_hashmap hash src n = some m) →
    ∀ (p q : K × V) (i j : Nat) (hi : i < m.contents.length)
      (hj : j < m.contents.length),
      p ∈ m.contents[i] →
      (bucketNo hash n p.1 = i ∧ (q ∈ m.contents[j] → q.1 = p.1 → i = j)))

/-- Conclusion of claim C10: the plain constructors accept bucket count 0
and return a container with no buckets, on which the routing operations
panic (`x % 0`); at any nonzero bucket count the routed index is in range
and those operations never panic. -/
def ZeroBucketSpec (K V : Type) [DecidableEq K] (hash : K → Nat) : Prop :=
  (THashSet.new 0 : THashSet K).contents = [] ∧
  (THashMap.new 0 : THashMap K V).contents = [] ∧
  (∀ value : K, (THashSet.new 0 : THashSet K).insert hash value = none) ∧
  (∀ k : K, (THashMap.new 0 : THashMap K V).get_bucket hash k = none) ∧
  (∀ (s : THashSet K) (value : K), 0 < s.contents.length →
    bucketNo hash s.contents.length value < s.contents.length ∧
    (s.insert hash value).isSome) ∧
  (∀ (m : THashMap K V) (k : K), 0 < m.contents.length →
    (m.get_bucket hash k).isSome)

/-! Generic lemmas about bucket vectors. -/

theorem mem_flatten_iff_exists_getElem {α : Type} (L : List (List α)) (x : α) :
    x ∈ L.flatten ↔ ∃ (i : Nat) (hi : i < L.length), x ∈ L[i] := by
  rw [List.mem_flatten]
  constructor
  · rintro ⟨l, hl, hxl⟩
    obtain ⟨i, hgi⟩ := List.mem_iff_get.mp hl
    exact ⟨i.1, i.2, by rw [← List.get_eq_getElem L i, hgi]; exact hxl⟩
  · rintro ⟨i, hi, hx⟩
    exact ⟨L[i], List.getElem_mem hi, hx⟩

theorem flatten_nodup_of_placed {α : Type} (f : α → Nat) (L : List (List α))
    (hpl : Placed f L) (hnd : ∀ (i : Nat) (hi : i < L.length), (L[i]).Nodup) :
    L.flatten.Nodup := by
  rw [List.nodup_flatten]
  refine ⟨fun l hl => ?_, ?_⟩
  · obtain ⟨i, hgi⟩ := List.mem_iff_get.mp hl
    rw [← hgi, List.get_eq_getElem]
    exact hnd i.1 i.2
  · rw [List.pairwise_iff_get]
    intro i j hij
    rw [List.disjoint_left]
    intro a hai haj
    rw [List.get_eq_getElem] at hai haj
    have h1 := hpl i.1 i.2 a hai
    have h2 := hpl j.1 j.2 a haj
    have hij2 : i.1 < j.1 := hij
    omega

/-- Replacing bucket `b` by a bucket whose members all route to `b` keeps
the placement property. -/
theorem placed_set_of_forall {α : Type} (f : α → Nat) (L : List (List α))
    (newBucket : List α) (b : Nat) (hpl : Placed f L)
    (hnew : ∀ x ∈ newBucket, f x = b) :
    Placed f (L.set b newBucket) := by
  intro i hi x hx
  have hi2 : i < L.length := by rwa [List.length_set] at hi
  by_cases hib : b = i
  · subst hib
    rw [List.getElem_set_self] at hx
    exact hnew x hx
  · rw [List.getElem_set_ne hib] at hx
    exact hpl i hi2 x hx

theorem mem_flatten_set_cons {α : Type} (L : List (List α)) (b : Nat)
    (hb : b < L.length) (y x : α) :
    x ∈ (L.set b (y :: L.getD b [])).flatten ↔ x = y ∨ x ∈ L.flatten := by
  rw [List.getD_eq_getElem L [] hb]
  rw [mem_flatten_iff_exists_getElem, mem_flatten_iff_exists_getElem]
  constructor
  · rintro ⟨i, hi, hx⟩
    have hi2 : i < L.length := by rwa [List.length_set] at hi
    by_cases hib : b = i
    · subst hib
      rw [List.getElem_set_self] at hx
      rcases List.mem_cons.mp hx with h | h
      · exact Or.inl h
      · exact Or.inr ⟨b, hb, h⟩
    · rw [List.getElem_set_ne hib] at hx
      exact Or.inr ⟨i, hi2, hx⟩
  · rintro (rfl | ⟨i, hi, hx⟩)
    · refine ⟨b, by rwa [List.length_set], ?_⟩
      rw [List.getElem_set_self]
      exact List.mem_cons_self x (L[b])
    · by_cases hib : b = i
      · subst hib
        refine ⟨b, by rwa [List.length_set], ?_⟩
        rw [List.getElem_set_self]
        exact List.mem_cons_of_mem y hx
      · refine ⟨i, by rwa [List.length_set], ?_⟩
        rw [List.getElem_set_ne hib]
        exact hx

theorem nodup_set_cons {α : Type} (L : List (List α)) (b : Nat) (hb : b < L.length)
    (y : α) (hnd : ∀ (i : Nat) (hi : i < L.length), (L[i]).Nodup)
    (hy : y ∉ L.getD b []) :
    ∀ (i : Nat) (hi : i < (L.set b (y :: L.getD b [])).length),
      ((L.set b (y :: L.getD b []))[i]).Nodup := by
  intro i hi
  have hi2 : i < L.length := by rwa [List.length_set] at hi
  by_cases hib : b = i
  · subst hib
    rw [List.getElem_set_self]
    refine List.nodup_cons.mpr ⟨hy, ?_⟩
    rw [List.getD_eq_getElem L [] hb]
    exact hnd b hb
  · rw [List.getElem_set_ne hib]
    exact hnd i hi2

/-! Lemmas about the transactional set. -/

theorem flatten_replicate_nil {α : Type} (n : Nat) :
    (List.replicate n ([] : List α)).flatten = [] := by
  induction n with
  | zero => rfl
  | succ m ih =>
    rw [List.replicate_succ, List.flatten_cons, List.nil_append]
    exact ih

theorem THashSet.new_inv {T : Type} (hash : T → Nat) (n : Nat) :
    THashSet.Inv hash n (THashSet.new n : THashSet T) := by
  refine ⟨List.length_replicate n [], ?_, ?_⟩
  · intro i hi x hx
    simp only [THashSet.new, List.getElem_replicate] at hx
    exact absurd hx (List.not_mem_nil x)
  · intro i hi
    simp only [THashSet.new, List.getElem_replicate]
    exact List.nodup_nil

theorem THashSet.new_elems {T : Type} (n : Nat) :
    (THashSet.new n : THashSet T).elems = [] := by
  simp only [THashSet.new, THashSet.elems]
  exact flatten_replicate_nil n

/-- Under the placement invariant, aggregate membership is membership in the
routed bucket: this is why the single-bucket probe in `insert` decides
membership in the whole set. -/
theorem THashSet.mem_elems_iff_bucket {T : Type} [DecidableEq T] (hash : T → Nat)
    (n : Nat) (hn : 0 < n) (s : THashSet T) (hInv : THashSet.Inv hash n s) (v : T) :
    v ∈ s.elems ↔ v ∈ s.contents.getD (bucketNo hash n v) [] := by
  obtain ⟨hlen, hpl, hnd⟩ := hInv
  have hb : bucketNo hash n v < s.contents.length := by
    rw [hlen]
    exact Nat.mod_lt _ hn
  rw [THashSet.elems, mem_flatten_iff_exists_getElem,
    List.getD_eq_getElem s.contents [] hb]
  constructor
  · rintro ⟨i, hi, hx⟩
    have := hpl i hi v hx
    subst this
    exact hx
  · intro hv
    exact ⟨bucketNo hash n v, hb, hv⟩

theorem THashSet.insert_eq_pos {T : Type} [DecidableEq T] (hash : T → Nat)
    (s : THashSet T) (value : T) (h0 : ¬ s.contents.length = 0)
    (hv : value ∈ s.contents.getD (bucketNo hash s.contents.length value) []) :
    s.insert hash value = some (false, s) := by
  simp only [THashSet.insert]
  rw [if_neg h0, if_pos hv]

theorem THashSet.insert_eq_neg {T : Type} [DecidableEq T] (hash : T → Nat)
    (s : THashSet T) (value : T) (h0 : ¬ s.contents.length = 0)
    (hv : value ∉ s.contents.getD (bucketNo hash s.contents.length value) []) :
    s.insert hash value =
      some (true, ⟨s.contents.set (bucketNo hash s.contents.length value)
        (value :: s.contents.getD (bucketNo hash s.contents.length value) [])⟩) := by
  simp only [THashSet.insert, hsInsert]
  rw [if_neg h0, if_neg hv, if_neg hv]

/-- Characterization of one `insert` call on a state satisfying the
invariant: the returned boolean is the aggregate-absence test, a `false`
answer leaves the state untouched, a `true` answer adds the value to its
routed bucket and nothing else, and the invariant is preserved. -/
theorem THashSet.insert_step {T : Type} [DecidableEq T] (hash : T → Nat) (n : Nat)
    (hn : 0 < n) (s : THashSet T) (hInv : THashSet.Inv hash n s) (value : T) :
    ∃ s2 : THashSet T,
      s.insert hash value = some (decide (value ∉ s.elems), s2) ∧
      THashSet.Inv hash n s2 ∧
      (value ∈ s.elems → s2 = s) ∧
      (∀ x, x ∈ s2.elems ↔ x = value ∨ x ∈ s.elems) ∧
      (∀ j, j ≠ bucketNo hash n value → s2.contents.getD j [] = s.contents.getD j []) := by
  obtain ⟨hlen, hpl, hnd⟩ := hInv
  have hlen0 : ¬ s.contents.length = 0 := by omega
  have hb : bucketNo hash n value < s.contents.length := by
    rw [hlen]
    exact Nat.mod_lt _ hn
  have hmem := THashSet.mem_elems_iff_bucket hash n hn s ⟨hlen, hpl, hnd⟩ value
  by_cases hv : value ∈ s.contents.getD (bucketNo hash n value) []
  · have hvel : value ∈ s.elems := hmem.mpr hv
    have hvL : value ∈ s.contents.getD (bucketNo hash s.contents.length value) [] := by
      rwa [hlen]
    refine ⟨s, ?_, ⟨hlen, hpl, hnd⟩, fun _ => rfl, fun x => ?_, fun j hj => rfl⟩
    · rw [THashSet.insert_eq_pos hash s value hlen0 hvL]
      rw [decide_eq_false (fun h => h hvel)]
    · constructor
      · exact fun h => Or.inr h
      · rintro (rfl | h)
        · exact hvel
        · exact h
  · have hvel : value ∉ s.elems := fun h => hv (hmem.mp h)
    have hvL : value ∉ s.contents.getD (bucketNo hash s.contents.length value) [] := by
      rwa [hlen]
    refine ⟨⟨s.contents.set (bucketNo hash n value)
      (value :: s.contents.getD (bucketNo hash n value) [])⟩,
      ?_, ?_, ?_, ?_, ?_⟩
    · rw [THashSet.insert_eq_neg hash s value hlen0 hvL, hlen]
      rw [decide_eq_true hvel]
    · refine ⟨by rw [List.length_set]; exact hlen, ?_, ?_⟩
      · apply placed_set_of_forall (bucketNo hash n) s.contents _ _ hpl
        intro x hx
        rcases List.mem_cons.mp hx with rfl | hx2
        · rfl
        · rw [List.getD_eq_getElem s.contents [] hb] at hx2
          exact hpl (bucketNo hash n value) hb x hx2
      · intro i hi
        exact nodup_set_cons s.contents (bucketNo hash n value) hb value hnd hv i hi
    · intro h
      exact absurd h hvel
    · intro x
      rw [THashSet.elems, THashSet.elems]
      exact mem_flatten_set_cons s.contents (bucketNo hash n value) hb value x
    · intro j hj
      by_cases hjl : j < s.contents.length
      · rw [List.getD_eq_getElem _ [] (by rwa [List.length_set]),
          List.getD_eq_getElem s.contents [] hjl]
        exact List.getElem_set_ne (fun h => hj h.symm) _
      · have h1 : s.contents.length ≤ j := by omega
        rw [List.getD_eq_default _ [] (by rwa [List.length_set]),
          List.getD_eq_default _ [] h1]

/-- Characterization of a whole sequence of `insert` calls started on a
state satisfying the invariant: the run never panics, the invariant is
preserved, one boolean comes back per call, the final contents are the old
contents plus the inserted values, and call `i` answers `true` exactly when
its value is new (absent from the initial contents and from the earlier
part of the sequence). -/
theorem THashSet.insertAll_spec {T : Type} [DecidableEq T] (hash : T → Nat) (n : Nat)
    (hn : 0 < n) :
    ∀ (l : List T) (s : THashSet T), THashSet.Inv hash n s →
      ∃ (bs : List Bool) (s2 : THashSet T),
        THashSet.insertAll hash s l = some (bs, s2) ∧
        THashSet.Inv hash n s2 ∧
        bs.length = l.length ∧
        (∀ x, x ∈ s2.elems ↔ x ∈ l ∨ x ∈ s.elems) ∧
        (∀ (i : Nat) (hi : i < l.length) (hb2 : i < bs.length),
          bs[i] = decide (l[i] ∉ s.elems ∧ l[i] ∉ l.take i)) := by
  intro l
  induction l with
  | nil =>
    intro s hInv
    exact ⟨[], s, rfl, hInv, rfl, fun x => by simp,
      fun i hi hb2 => absurd hi (by simp)⟩
  | cons v rest ih =>
    intro s hInv
    obtain ⟨s1, heq, hInv1, hsame, hElems1, hframe⟩ :=
      THashSet.insert_step hash n hn s hInv v
    obtain ⟨bs, s2, heq2, hInv2, hlenbs, hmem2, hbool⟩ := ih s1 hInv1
    refine ⟨decide (v ∉ s.elems) :: bs, s2, ?_, hInv2, by simp [hlenbs], ?_, ?_⟩
    · simp only [THashSet.insertAll, heq, heq2]
    · intro x
      rw [hmem2 x, hElems1 x]
      simp only [List.mem_cons]
      tauto
    · intro i hi hb2
      match i with
      | 0 =>
        rw [List.getElem_cons_zero, List.getElem_cons_zero, decide_eq_decide]
        simp
      | i + 1 =>
        have hi2 : i < rest.length := by simpa using hi
        have hb3 : i < bs.length := by simpa using hb2
        rw [List.getElem_cons_succ, List.getElem_cons_succ, List.take_succ_cons]
        rw [hbool i hi2 hb3, decide_eq_decide]
        simp only [hElems1, List.mem_cons, not_or]
        tauto

/-! Lemmas about `as_vec`. -/

theorem foldl_append_eq_flatten {α : Type} (L : List (List α)) :
    ∀ acc : List α,
      L.foldl (fun result innerSet => result ++ innerSet) acc = acc ++ L.flatten := by
  induction L with
  | nil => intro acc; simp
  | cons b rest ih =>
    intro acc
    rw [List.foldl_cons, ih, List.flatten_cons, List.append_assoc]

/-- The sequence `as_vec` returns is the concatenation of the buckets in
ascending bucket-index order. -/
theorem THashSet.as_vec_fst {T : Type} (s : THashSet T) :
    (s.as_vec).1 = s.contents.flatten := by
  simp only [THashSet.as_vec]
  rw [foldl_append_eq_flatten, List.nil_append]

/-- Read-only drain: `as_vec` leaves every bucket of the container exactly
as it was. -/
theorem THashSet.as_vec_snd {T : Type} (s : THashSet T) :
    (s.as_vec).2 = s := rfl

theorem THashSet.inv_elems_nodup {T : Type} (hash : T → Nat) (n : Nat)
    (s : THashSet T) (hInv : THashSet.Inv hash n s) : s.elems.Nodup := by
  obtain ⟨hlen, hpl, hnd⟩ := hInv
  exact flatten_nodup_of_placed (bucketNo hash n) s.contents hpl hnd

/-! Lemmas about the transactional map. -/

theorem mem_hmInsert {K V : Type} [DecidableEq K] (k : K) (v : V)
    (hm : List (K × V)) (p : K × V) (hp : p ∈ hmInsert k v hm) :
    p = (k, v) ∨ p ∈ hm := by
  simp only [hmInsert] at hp
  rcases List.mem_cons.mp hp with h | h
  · exact Or.inl h
  · exact Or.inr (List.mem_filter.mp h).1

theorem hmInsert_eq_cons_of_fresh {K V : Type} [DecidableEq K] (k : K) (v : V)
    (hm : List (K × V)) (hk : k ∉ hm.map Prod.fst) :
    hmInsert k v hm = (k, v) :: hm := by
  simp only [hmInsert]
  congr 1
  rw [List.filter_eq_self]
  intro p hp
  simp only [decide_eq_true_eq]
  intro h
  exact hk (List.mem_map.mpr ⟨p, hp, h⟩)

theorem partitionLoop_placed {K V : Type} [DecidableEq K] (hash : K → Nat) (n : Nat)
    (hn : 0 < n) :
    ∀ (entries : List (K × V)) (A : List (List (K × V))),
      A.length = n →
      Placed (fun p => bucketNo hash n p.1) A →
      (partitionLoop hash n entries A).length = n ∧
      Placed (fun p => bucketNo hash n p.1) (partitionLoop hash n entries A) := by
  intro entries
  induction entries with
  | nil =>
    intro A hA hpl
    exact ⟨hA, hpl⟩
  | cons q rest ih =>
    obtain ⟨k, v⟩ := q
    intro A hA hpl
    have hb : bucketNo hash n k < A.length := by
      rw [hA]
      exact Nat.mod_lt _ hn
    simp only [partitionLoop]
    apply ih
    · rw [List.length_set]
      exact hA
    · apply placed_set_of_forall _ A _ _ hpl
      intro x hx
      rcases mem_hmInsert k v _ x hx with rfl | hx2
      · rfl
      · rw [List.getD_eq_getElem A [] hb] at hx2
        exact hpl (bucketNo hash n k) hb x hx2

/-- Full characterization of the bulk-partition loop on a source whose keys
are duplicate-free and disjoint from the keys already placed: placement and
per-bucket key uniqueness are preserved and the final aggregate contents are
the processed entries together with the initial contents. -/
theorem partitionLoop_full {K V : Type} [DecidableEq K] (hash : K → Nat) (n : Nat)
    (hn : 0 < n) :
    ∀ (entries : List (K × V)) (A : List (List (K × V))),
      A.length = n →
      Placed (fun p => bucketNo hash n p.1) A →
      (∀ (i : Nat) (hi : i < A.length), ((A[i]).map Prod.fst).Nodup) →
      (entries.map Prod.fst).Nodup →
      (∀ q : K × V, q ∈ entries → q.1 ∉ A.flatten.map Prod.fst) →
      (∀ (i : Nat) (hi : i < (partitionLoop hash n entries A).length),
        (((partitionLoop hash n entries A)[i]).map Prod.fst).Nodup) ∧
      (∀ x : K × V,
        x ∈ (partitionLoop hash n entries A).flatten ↔ x ∈ entries ∨ x ∈ A.flatten) := by
  intro entries
  induction entries with
  | nil =>
    intro A hA hpl hnd hed hfresh
    exact ⟨hnd, fun x => by simp [partitionLoop]⟩
  | cons q rest ih =>
    obtain ⟨k, v⟩ := q
    intro A hA hpl hnd hed hfresh
    have hb : bucketNo hash n k < A.length := by
      rw [hA]
      exact Nat.mod_lt _ hn
    have hkb : k ∉ (A.getD (bucketNo hash n k) []).map Prod.fst := by
      intro hk
      obtain ⟨p, hp, hpk⟩ := List.mem_map.mp hk
      rw [List.getD_eq_getElem A [] hb] at hp
      exact hfresh (k, v) (List.mem_cons_self _ _)
        (List.mem_map.mpr ⟨p, (mem_flatten_iff_exists_getElem A p).mpr
          ⟨_, hb, hp⟩, hpk⟩)
    have hedk : k ∉ rest.map Prod.fst ∧ (rest.map Prod.fst).Nodup := by
      rw [List.map_cons] at hed
      exact ⟨(List.nodup_cons.mp hed).1, (List.nodup_cons.mp hed).2⟩
    simp only [partitionLoop, hmInsert_eq_cons_of_fresh k v _ hkb]
    obtain ⟨hnd2, hmem2⟩ := ih (A.set (bucketNo hash n k)
        ((k, v) :: A.getD (bucketNo hash n k) []))
      (by rw [List.length_set]; exact hA)
      (by
        apply placed_set_of_forall _ A _ _ hpl
        intro x hx
        rcases List.mem_cons.mp hx with rfl | hx2
        · rfl
        · rw [List.getD_eq_getElem A [] hb] at hx2
          exact hpl (bucketNo hash n k) hb x hx2)
      (by
        intro i hi
        have hi2 : i < A.length := by rwa [List.length_set] at hi
        by_cases hib : bucketNo hash n k = i
        · subst hib
          rw [List.getElem_set_self, List.map_cons]
          refine List.nodup_cons.mpr ⟨hkb, ?_⟩
          rw [List.getD_eq_getElem A [] hb]
          exact hnd _ hb
        · rw [List.getElem_set_ne hib]
          exact hnd i hi2)
      hedk.2
      (by
        intro q hq hqk
        obtain ⟨p, hp, hpk⟩ := List.mem_map.mp hqk
        rcases (mem_flatten_set_cons A _ hb (k, v) p).mp hp with rfl | hp2
        · exact hedk.1 (List.mem_map.mpr ⟨q, hq, hpk.symm⟩)
        · exact hfresh q (List.mem_cons_of_mem _ hq)
            (List.mem_map.mpr ⟨p, hp2, hpk⟩))
    refine ⟨hnd2, fun x => ?_⟩
    rw [hmem2 x, mem_flatten_set_cons A _ hb (k, v) x]
    simp only [List.mem_cons]
    tauto

theorem THashMap.from_hashmap_eq {K V : Type} [DecidableEq K] (hash : K → Nat)
    (map : List (K × V)) (n : Nat) (hn : ¬ n = 0) :
    THashMap.from_hashmap hash map n =
      some ⟨partitionLoop hash n map (List.replicate n [])⟩ := by
  simp only [THashMap.from_hashmap]
  rw [if_neg hn]

theorem replicate_nil_placed {α : Type} (f : α → Nat) (n : Nat) :
    Placed f (List.replicate n ([] : List α)) := by
  intro i hi x hx
  rw [List.getElem_replicate] at hx
  exact absurd hx (List.not_mem_nil x)

theorem isEmptyLoop_eq_all {K V : Type} (L : List (List (K × V))) :
    isEmptyLoop L = L.all List.isEmpty := by
  induction L with
  | nil => rfl
  | cons b rest ih =>
    cases hb : b.isEmpty
    · simp [isEmptyLoop, hb]
    · simp [isEmptyLoop, hb, ih]

theorem isEmptyLoop_eq_true_iff {K V : Type} (L : List (List (K × V))) :
    isEmptyLoop L = true ↔ ∀ bucket ∈ L, bucket = [] := by
  simp [isEmptyLoop_eq_all, List.all_eq_true, List.isEmpty_iff]

theorem isEmptyLoop_eq_find {K V : Type} (L : List (List (K × V))) :
    isEmptyLoop L = (L.find? (fun bucket => !bucket.isEmpty)).isNone := by
  induction L with
  | nil => rfl
  | cons b rest ih =>
    cases hb : b.isEmpty
    · simp [isEmptyLoop, List.find?_cons, hb]
    · simp [isEmptyLoop, List.find?_cons, hb, ih]

/-- Whatever `insert` answers, only the routed bucket can have changed. -/
theorem THashSet.insert_frame {T : Type} [DecidableEq T] (hash : T → Nat)
    (s : THashSet T) (value : T) (b : Bool) (s2 : THashSet T)
    (heq : s.insert hash value = some (b, s2)) :
    ∀ j : Nat, j ≠ bucketNo hash s.contents.length value →
      s2.contents.getD j [] = s.contents.getD j [] := by
  intro j hj
  have hlen0 : ¬ s.contents.length = 0 := by
    intro h0
    simp only [THashSet.insert] at heq
    rw [if_pos h0] at heq
    exact Option.noConfusion heq
  by_cases hv : value ∈ s.contents.getD (bucketNo hash s.contents.length value) []
  · rw [THashSet.insert_eq_pos hash s value hlen0 hv] at heq
    simp only [Option.some.injEq, Prod.mk.injEq] at heq
    rw [← heq.2]
  · rw [THashSet.insert_eq_neg hash s value hlen0 hv] at heq
    simp only [Option.some.injEq, Prod.mk.injEq] at heq
    rw [← heq.2]
    by_cases hjl : j < s.contents.length
    · rw [List.getD_eq_getElem _ [] (by rwa [List.length_set]),
        List.getD_eq_getElem s.contents [] hjl]
      exact List.getElem_set_ne (fun h => hj h.symm) _
    · have h1 : s.contents.length ≤ j := by omega
      rw [List.getD_eq_default _ [] (by rwa [List.length_set]),
        List.getD_eq_default _ [] h1]

theorem hmInsert_keys_nodup {K V : Type} [DecidableEq K] (k : K) (v : V)
    (hm : List (K × V)) (hnd : (hm.map Prod.fst).Nodup) :
    ((hmInsert k v hm).map Prod.fst).Nodup := by
  simp only [hmInsert, List.map_cons]
  refine List.nodup_cons.mpr ⟨?_, ?_⟩
  · intro hk
    obtain ⟨p, hp, hpk⟩ := List.mem_map.mp hk
    have h2 := (List.mem_filter.mp hp).2
    rw [hpk] at h2
    simp at h2
  · exact List.Nodup.sublist ((List.filter_sublist hm).map Prod.fst) hnd

theorem partitionLoop_keys_nodup {K V : Type} [DecidableEq K] (hash : K → Nat)
    (n : Nat) (hn : 0 < n) :
    ∀ (entries : List (K × V)) (A : List (List (K × V))),
      A.length = n →
      (∀ (i : Nat) (hi : i < A.length), ((A[i]).map Prod.fst).Nodup) →
      ∀ (i : Nat) (hi : i < (partitionLoop hash n entries A).length),
        (((partitionLoop hash n entries A)[i]).map Prod.fst).Nodup := by
  intro entries
  induction entries with
  | nil =>
    intro A hA hnd
    exact hnd
  | cons q rest ih =>
    obtain ⟨k, v⟩ := q
    intro A hA hnd
    have hb : bucketNo hash n k < A.length := by
      rw [hA]
      exact Nat.mod_lt _ hn
    simp only [partitionLoop]
    apply ih
    · rw [List.length_set]
      exact hA
    · intro i hi
      have hi2 : i < A.length := by rwa [List.length_set] at hi
      by_cases hib : bucketNo hash n k = i
      · subst hib
        rw [List.getElem_set_self]
        apply hmInsert_keys_nodup
        rw [List.getD_eq_getElem A [] hb]
        exact hnd _ hb
      · rw [List.getElem_set_ne hib]
        exact hnd i hi2

/-- Bulk construction establishes the map's bucket-placement invariant, with
no assumption on the source entry list. -/
theorem THashMap.from_hashmap_mapInv {K V : Type} [DecidableEq K] (hash : K → Nat)
    (src : List (K × V)) (n : Nat) (hn : 0 < n) (m : THashMap K V)
    (heq : THashMap.from_hashmap hash src n = some m) :
    THashMap.MapInv hash n m := by
  rw [THashMap.from_hashmap_eq hash src n (by omega)] at heq
  simp only [Option.some.injEq] at heq
  subst heq
  obtain ⟨hlen, hpl⟩ := partitionLoop_placed hash n hn src (List.replicate n [])
    (List.length_replicate n []) (replicate_nil_placed _ n)
  refine ⟨hlen, hpl, ?_⟩
  apply partitionLoop_keys_nodup hash n hn src _ (List.length_replicate n [])
  intro i hi
  rw [List.getElem_replicate]
  exact List.nodup_nil

theorem flatten_map_fst_nodup {K V : Type} (hash : K → Nat) (n : Nat)
    (L : List (List (K × V)))
    (hpl : Placed (fun p => bucketNo hash n p.1) L)
    (hnd : ∀ (i : Nat) (hi : i < L.length), ((L[i]).map Prod.fst).Nodup) :
    (L.flatten.map Prod.fst).Nodup := by
  rw [List.map_flatten]
  apply flatten_nodup_of_placed (bucketNo hash n)
  · intro i hi x hx
    rw [List.getElem_map] at hx
    obtain ⟨p, hp, rfl⟩ := List.mem_map.mp hx
    have hi2 : i < L.length := by simpa using hi
    exact hpl i hi2 p hp
  · intro i hi
    rw [List.getElem_map]
    exact hnd i (by simpa using hi)

/-- Every reachable state of the set satisfies the placement invariant. -/
theorem SetReach.inv {T : Type} [DecidableEq T] (hash : T → Nat) (n : Nat)
    (hn : 0 < n) (s : THashSet T) (hr : SetReach hash n s) :
    THashSet.Inv hash n s := by
  induction hr with
  | init => exact THashSet.new_inv hash n
  | step_insert s value b s2 hr heq ih =>
    obtain ⟨s3, heq2, hInv3, _, _, _⟩ := THashSet.insert_step hash n hn s ih value
    rw [heq] at heq2
    simp only [Option.some.injEq, Prod.mk.injEq] at heq2
    rw [heq2.2]
    exact hInv3
  | step_as_vec s hr ih => exact ih

/-! The claims. -/

/-- Claim C1 (code bug witnessed at a failing input): the source's own
documentation of `as_vec` says the container is empty afterwards, but the
code only reads each bucket's transactional variable and drains a local
clone.  At bucket count 1, hash the identity, after inserting 0: `as_vec`
returns `[0]`, yet bucket 0 still holds `[0]` and a second `as_vec` returns
`[0]` again instead of `[]`. -/
theorem as_vec_does_not_empty_buckets :
    ((THashSet.new 1 : THashSet Nat).insert (fun v => v) 0).map
        (fun p => ((p.2.as_vec).1, ((p.2.as_vec).2).contents,
          (((p.2.as_vec).2).as_vec).1)) =
      some ([0], [[0]], [0]) := by decide

/-- Claim C2: for every set with bucket count at least 1, each `insert`
returns `true` exactly when the value is absent (once per distinct value in
any sequence of calls, `false` on any repeat), and in the `false` case the
operation completes with no mutation of any bucket. -/
theorem insert_true_once_false_on_repeat (T : Type) [DecidableEq T]
    (hash : T → Nat) (n : Nat) (hn : 0 < n) : InsertSpec T hash n := by
  constructor
  · intro s value hInv
    obtain ⟨s2, heq, hInv2, hsame, hmem, hframe⟩ :=
      THashSet.insert_step hash n hn s hInv value
    exact ⟨s2, heq, hsame⟩
  · intro l
    obtain ⟨bs, s2, heq, hInv2, hlen, hmem, hbool⟩ :=
      THashSet.insertAll_spec hash n hn l (THashSet.new n) (THashSet.new_inv hash n)
    refine ⟨bs, s2, heq, hlen, ?_⟩
    intro i hi hb
    rw [hbool i hi hb, decide_eq_decide, THashSet.new_elems]
    simp

theorem insert_true_once_false_on_repeat_witness :
    0 < 2 ∧ InsertSpec Nat (fun v => v) 2 :=
  ⟨by decide, insert_true_once_false_on_repeat Nat (fun v => v) 2 (by decide)⟩

/-- Claim C3 as amended: construction does not fail at bucket count 0 for
`THashSet::new` and `THashMap::new` (they return a zero-bucket container);
only the bulk constructor `from_hashmap` fails at bucket count 0 (division
by zero), and for every bucket count at least 1 all three constructors
succeed. -/
theorem construction_failure_profile (K V : Type) [DecidableEq K]
    (hash : K → Nat) (n : Nat) (hn : 0 < n) : ConstructSpec K V hash n := by
  refine ⟨?_, ?_, ?_, ?_⟩
  · intro c
    exact List.length_replicate c []
  · intro c
    exact List.length_replicate c []
  · intro source
    rw [THashMap.from_hashmap_eq hash source n (by omega)]
    rfl
  · intro source
    rfl

theorem construction_failure_profile_witness :
    0 < 3 ∧ ConstructSpec Nat Nat (fun v => v) 3 :=
  ⟨by decide, construction_failure_profile Nat Nat (fun v => v) 3 (by decide)⟩

/-- Counterexample to claim C3 as stated: constructing a set or a map with
`bucket_count = 0` does not fail — both `new` constructors return normally,
yielding a container with no buckets; the panic only happens later, inside
a routing operation such as `insert` (and the bulk constructor is the one
construction path that does fail at 0). -/
theorem construction_with_zero_buckets_returns :
    (THashSet.new 0 : THashSet Nat).contents = [] ∧
    (THashMap.new 0 : THashMap Nat Nat).contents = [] ∧
    (THashSet.new 0 : THashSet Nat).insert (fun v => v) 7 = none ∧
    THashMap.from_hashmap (fun v => v) ([(1, 2)] : List (Nat × Nat)) 0 = none := by
  decide

/-- Claim C4: for every set with bucket count at least 1, `as_vec` returns
the buckets concatenated in ascending bucket-index order, and after
inserting any list of distinct values into a fresh set it returns exactly
those values, with no duplicates and no omissions. -/
theorem as_vec_returns_exactly_contents (T : Type) [DecidableEq T]
    (hash : T → Nat) (n : Nat) (hn : 0 < n) : AsVecSpec T hash n := by
  constructor
  · exact THashSet.as_vec_fst
  · intro l hl bs s2 heq
    obtain ⟨bs2, s22, heq2, hInv2, hlen2, hmem2, hbool2⟩ :=
      THashSet.insertAll_spec hash n hn l (THashSet.new n) (THashSet.new_inv hash n)
    rw [heq] at heq2
    simp only [Option.some.injEq, Prod.mk.injEq] at heq2
    obtain ⟨hbs, hs⟩ := heq2
    subst hbs
    subst hs
    constructor
    · intro x
      rw [THashSet.as_vec_fst]
      have hx := hmem2 x
      rw [THashSet.new_elems] at hx
      simp only [List.not_mem_nil, or_false] at hx
      exact hx
    · rw [THashSet.as_vec_fst]
      exact THashSet.inv_elems_nodup hash n s2 hInv2

theorem as_vec_returns_exactly_contents_witness :
    0 < 2 ∧ AsVecSpec Nat (fun v => v) 2 :=
  ⟨by decide, as_vec_returns_exactly_contents Nat (fun v => v) 2 (by decide)⟩

/-- Claim C5: bulk construction from a source mapping with duplicate-free
keys (any size, any bucket count at least 1) partitions exactly the
source's entries over the buckets — no omission, no duplication — with
each entry in the bucket its key routes to. -/
theorem from_hashmap_partitions_source (K V : Type) [DecidableEq K]
    (hash : K → Nat) (src : List (K × V)) (n : Nat) (hn : 0 < n)
    (hkeys : (src.map Prod.fst).Nodup) : FromHashmapSpec K V hash src n := by
  have hbase_nd : ∀ (i : Nat) (hi : i < (List.replicate n ([] : List (K × V))).length),
      (((List.replicate n ([] : List (K × V)))[i]).map Prod.fst).Nodup := by
    intro i hi
    rw [List.getElem_replicate]
    exact List.nodup_nil
  have hbase_fresh : ∀ q : K × V, q ∈ src →
      q.1 ∉ (List.replicate n ([] : List (K × V))).flatten.map Prod.fst := by
    intro q hq
    rw [flatten_replicate_nil]
    exact List.not_mem_nil q.1
  obtain ⟨hlen, hpl⟩ := partitionLoop_placed hash n hn src (List.replicate n [])
    (List.length_replicate n []) (replicate_nil_placed _ n)
  obtain ⟨hnd, hmem⟩ := partitionLoop_full hash n hn src (List.replicate n [])
    (List.length_replicate n []) (replicate_nil_placed _ n) hbase_nd hkeys hbase_fresh
  refine ⟨⟨partitionLoop hash n src (List.replicate n [])⟩,
    THashMap.from_hashmap_eq hash src n (by omega), hlen, ?_, ?_, ?_⟩
  · intro p
    rw [← mem_flatten_iff_exists_getElem, hmem p, flatten_replicate_nil]
    simp
  · intro p i hi hp
    exact (hpl i hi p hp).symm
  · exact flatten_map_fst_nodup hash n _ hpl hnd

theorem from_hashmap_partitions_source_witness :
    0 < 2 ∧ (([(1, 10), (2, 20), (5, 30)] : List (Nat × Nat)).map Prod.fst).Nodup ∧
      FromHashmapSpec Nat Nat (fun v => v) [(1, 10), (2, 20), (5, 30)] 2 :=
  ⟨by decide, by decide, from_hashmap_partitions_source Nat Nat (fun v => v)
    [(1, 10), (2, 20), (5, 30)] 2 (by decide) (by decide)⟩

/-- Claim C6: `is_empty` scans the buckets in ascending index order and is
`false` exactly when that scan finds a nonempty bucket, so it is `true`
only when every bucket is empty; it is `true` on every freshly constructed
map (any bucket count) and `false` after a single entry is placed. -/
theorem is_empty_iff_all_buckets_empty (K V : Type) [DecidableEq K]
    (hash : K → Nat) (n : Nat) (hn : 0 < n) : IsEmptySpec K V hash n := by
  refine ⟨fun m => isEmptyLoop_eq_find m.contents,
    fun m => isEmptyLoop_eq_true_iff m.contents, ?_, ?_⟩
  · intro c
    rw [THashMap.is_empty, isEmptyLoop_eq_true_iff]
    intro bucket hbucket
    simp only [THashMap.new] at hbucket
    exact (List.mem_replicate.mp hbucket).2
  · intro k v m heq
    rw [THashMap.from_hashmap_eq hash [(k, v)] n (by omega)] at heq
    simp only [Option.some.injEq] at heq
    subst heq
    have hb : bucketNo hash n k < n := Nat.mod_lt _ hn
    have hcontents : partitionLoop hash n [(k, v)] (List.replicate n []) =
        (List.replicate n ([] : List (K × V))).set (bucketNo hash n k) [(k, v)] := by
      simp only [partitionLoop]
      rw [List.getD_eq_getElem _ []
        (by rw [List.length_replicate]; exact hb), List.getElem_replicate]
      rfl
    have hfalse : ¬ (isEmptyLoop (partitionLoop hash n [(k, v)]
        (List.replicate n ([] : List (K × V)))) = true) := by
      rw [isEmptyLoop_eq_true_iff]
      intro hall
      have hb2 : bucketNo hash n k <
          ((List.replicate n ([] : List (K × V))).set (bucketNo hash n k)
            [(k, v)]).length := by
        rw [List.length_set, List.length_replicate]
        exact hb
      have h3 := List.getElem_set_self hb2
      have h4 : ([(k, v)] : List (K × V)) ∈
          (List.replicate n ([] : List (K × V))).set (bucketNo hash n k) [(k, v)] := by
        rw [List.mem_iff_get]
        refine ⟨⟨bucketNo hash n k, hb2⟩, ?_⟩
        rw [List.get_eq_getElem]
        exact h3
      have h5 := hall [(k, v)] (by rw [hcontents]; exact h4)
      exact List.cons_ne_nil (k, v) [] h5
    show isEmptyLoop (partitionLoop hash n [(k, v)]
      (List.replicate n ([] : List (K × V)))) = false
    cases hcase : isEmptyLoop (partitionLoop hash n [(k, v)]
      (List.replicate n ([] : List (K × V))))
    · rfl
    · exact absurd hcase hfalse

theorem is_empty_iff_all_buckets_empty_witness :
    0 < 1000 ∧ IsEmptySpec Nat Nat (fun v => v) 1000 :=
  ⟨by decide, is_empty_iff_all_buckets_empty Nat Nat (fun v => v) 1000 (by decide)⟩

/-- Claim C7: the hash routing shared by `insert`, `get_bucket` and
`from_hashmap` is deterministic and yields an index in `[0, n)`;
`get_bucket` returns the handle of exactly the routed bucket, the bucket
where the key resides (under the invariant) or would be stored; `insert`
changes no bucket other than the routed one; `from_hashmap` places every
entry at its routed bucket. -/
theorem routing_deterministic_in_range (K V : Type) [DecidableEq K]
    (hash : K → Nat) (n : Nat) (hn : 0 < n) : RouteSpec K V hash n := by
  refine ⟨fun k => Nat.mod_lt _ hn, fun k1 k2 h => by rw [h], ?_, ?_, ?_, ?_⟩
  · intro m k hlen
    simp only [THashMap.get_bucket]
    rw [if_neg (by omega), hlen]
  · intro m hInv k v i hi hp
    exact (hInv.2.1 i hi (k, v) hp).symm
  · intro src m heq
    exact THashMap.from_hashmap_mapInv hash src n hn m heq
  · intro s value b s2 hlen heq j hj
    apply THashSet.insert_frame hash s value b s2 heq
    rw [hlen]
    exact hj

theorem routing_deterministic_in_range_witness :
    0 < 4 ∧ RouteSpec Nat Nat (fun v => v) 4 :=
  ⟨by decide, routing_deterministic_in_range Nat Nat (fun v => v) 4 (by decide)⟩

/-- Claim C8: after any sequence of operations, every element of the set
and every entry of the map sits in the bucket its hash routes it to and in
no other bucket simultaneously. -/
theorem one_location_invariant (K V : Type) [DecidableEq K]
    (hash : K → Nat) (n : Nat) (hn : 0 < n) : OneLocSpec K V hash n := by
  constructor
  · intro s hr x i j hi hj hx
    obtain ⟨hlen, hpl, hnd⟩ := SetReach.inv hash n hn s hr
    refine ⟨hpl i hi x hx, fun hx2 => ?_⟩
    rw [← hpl i hi x hx, ← hpl j hj x hx2]
  · intro m hm p q i j hi hj hp
    have hInv : THashMap.MapInv hash n m := by
      rcases hm with rfl | ⟨src, heq⟩
      · refine ⟨List.length_replicate n [], ?_, ?_⟩
        · intro i2 hi2 x hx
          simp only [THashMap.new, List.getElem_replicate] at hx
          exact absurd hx (List.not_mem_nil x)
        · intro i2 hi2
          simp only [THashMap.new, List.getElem_replicate]
          exact List.nodup_nil
      · exact THashMap.from_hashmap_mapInv hash src n hn m heq
    refine ⟨hInv.2.1 i hi p hp, fun hq hqp => ?_⟩
    have h1 : bucketNo hash n p.1 = i := hInv.2.1 i hi p hp
    have h2 : bucketNo hash n q.1 = j := hInv.2.1 j hj q hq
    rw [hqp] at h2
    omega

theorem one_location_invariant_witness :
    0 < 2 ∧ OneLocSpec Nat Nat (fun v => v) 2 :=
  ⟨by decide, one_location_invariant Nat Nat (fun v => v) 2 (by decide)⟩

/-- Claim C9: `as_vec` only reads the buckets' transactional variables and
writes none of them back: every bucket holds after the call exactly what it
held before, the drain applying to a local copy of each bucket's set. -/
theorem as_vec_reads_only (T : Type) : AsVecFrameSpec T :=
  fun s => ⟨rfl, THashSet.as_vec_fst s⟩

/-- Claim C10: `new 0` returns normally with zero buckets, on which
`insert` and `get_bucket` panic computing `index % 0`; with at least one
bucket the routed index is always in range and these operations never
panic. -/
theorem zero_buckets_defer_panic_to_routing (K V : Type) [DecidableEq K]
    (hash : K → Nat) : ZeroBucketSpec K V hash := by
  refine ⟨rfl, rfl, ?_, ?_, ?_, ?_⟩
  · intro value
    rfl
  · intro k
    rfl
  · intro s value hlen
    refine ⟨Nat.mod_lt _ hlen, ?_⟩
    have hlen0 : ¬ s.contents.length = 0 := by omega
    by_cases hv : value ∈ s.contents.getD (bucketNo hash s.contents.length value) []
    · rw [THashSet.insert_eq_pos hash s value hlen0 hv]
      rfl
    · rw [THashSet.insert_eq_neg hash s value hlen0 hv]
      rfl
  · intro m k hlen
    simp only [THashMap.get_bucket]
    rw [if_neg (by omega)]
    rfl

end StmDS
